import Mathlib

/-!
# LogCabin `Server/RaftLog.cc`: the volatile Raft log

A shallow embedding of `LogCabin::Server::RaftConsensusInternal::Log` and
proofs about its operations `append`, `getEntry`, `getLastLogIndex`,
`getTerm`, `truncate` and `updateMetadata`.

Conventions of the embedding:

* `uint64_t` and `size_t` values are natural numbers below `2 ^ 64`; every
  place where the source computes on them reduces modulo `2 ^ 64`.
* `std::vector<Entry>` is a `List`; `size()` yields the element count as a
  `size_t`, `at(i)` is the bounds-checked access that throws
  `std::out_of_range`, `push_back` adds at the end and `resize(n)` cuts the
  vector to `n` elements or pads it with default-constructed ones.
* an operation that can throw returns `Except Error _`.
-/

namespace LogCabin
namespace Server
namespace RaftConsensusInternal

/-- The number of values of a `uint64_t` (and of a `size_t`). -/
def UINT64_MODULUS : Nat := 2 ^ 64

/-- Unsigned 64-bit subtraction `a - b`, wrapping around below zero. -/
def sub64 (a b : Nat) : Nat :=
  (a % UINT64_MODULUS + UINT64_MODULUS - b % UINT64_MODULUS) % UINT64_MODULUS

/-- The only exception raised by the code: `std::out_of_range`, thrown by
`std::vector::at`. -/
inductive Error where
  | OutOfRange
  deriving DecidableEq, Repr

/-- Results of fallible operations are compared by evaluation. -/
instance instDecidableEqExcept {ε α : Type} [DecidableEq ε] [DecidableEq α] :
    DecidableEq (Except ε α)
  | Except.ok a, Except.ok b =>
    if h : a = b then isTrue (by rw [h]) else isFalse (fun h1 => h (by cases h1; rfl))
  | Except.error a, Except.error b =>
    if h : a = b then isTrue (by rw [h]) else isFalse (fun h1 => h (by cases h1; rfl))
  | Except.ok _, Except.error _ => isFalse (fun h => by cases h)
  | Except.error _, Except.ok _ => isFalse (fun h => by cases h)

/-- Modelled from the spec: the message type `Log::Entry`, declared in
`Server/RaftLog.h` and `Protocol/Raft.proto`, which are not part of the
sources at hand. An entry carries the `term` that `Log::getTerm` reads through
`term()` and a payload that the log never inspects. -/
structure Entry (P : Type) where
  term : Nat
  payload : P
  deriving DecidableEq, Repr

/-- A default-constructed entry, as `std::vector::resize` would pad with:
term `0` and a default payload. -/
instance instInhabitedEntry (P : Type) [Inhabited P] : Inhabited (Entry P) :=
  ⟨⟨0, default⟩⟩

/-- The object `Log`: its two data members, `metadata` (a record kept for
the consensus module, of a type `M` that the log does not look into) and
`entries` (the `std::vector<Entry>`). -/
structure Log (M P : Type) where
  metadata : M
  entries : List (Entry P)
  deriving DecidableEq, Repr

section vector

variable {α : Type}

/-- `std::vector::size()`: the element count, as a `size_t`. -/
def vsize (v : List α) : Nat := v.length % UINT64_MODULUS

/-- `std::vector::at(index)`: the element at `index` when `index < size()`,
the exception `std::out_of_range` otherwise. -/
def vat (v : List α) (index : Nat) : Except Error α :=
  if h : index < vsize v then
    Except.ok (v.get ⟨index, Nat.lt_of_lt_of_le h (Nat.mod_le _ _)⟩)
  else
    Except.error Error.OutOfRange

/-- `std::vector::push_back(x)`. -/
def push_back (v : List α) (x : α) : List α := v ++ [x]

/-- `std::vector::resize(n)`: keep the first `n` elements, or pad with
default-constructed elements up to `n`. -/
def resize [Inhabited α] (v : List α) (n : Nat) : List α :=
  v.take n ++ List.replicate (n - v.length) default

end vector

namespace Log

variable {M P : Type}

/-- `Log::Log()`: default metadata, no entries. -/
def new [Inhabited M] : Log M P :=
  { metadata := default, entries := [] }

/-- `Log::append(entry)`: push the entry and return the new size. The result
pairs the log after the call with the returned `entryId`. -/
def append (l : Log M P) (entry : Entry P) : Log M P × Nat :=
  let l1 : Log M P := { l with entries := push_back l.entries entry }
  let entryId := vsize l1.entries
  (l1, entryId)

/-- `Log::getEntry(entryId)`: `entries.at(entryId - 1)`. -/
def getEntry (l : Log M P) (entryId : Nat) : Except Error (Entry P) :=
  let index := sub64 entryId 1
  vat l.entries index

/-- `Log::getLastLogIndex()`: `entries.size()`. -/
def getLastLogIndex (l : Log M P) : Nat :=
  vsize l.entries

/-- `Log::getTerm(entryId)`: `0` when `entryId - 1` (which may roll over) is
not below `entries.size()`, the term of `entries.at(entryId - 1)` otherwise.
The access through `at` can throw, so the result is an `Except`. -/
def getTerm (l : Log M P) (entryId : Nat) : Except Error Nat :=
  let index := sub64 entryId 1
  if index ≥ vsize l.entries then
    Except.ok 0
  else
    (vat l.entries index).map Entry.term

/-- `Log::truncate(lastEntryId)`: resize the vector when `lastEntryId` is
below its size, nothing otherwise. -/
def truncate [Inhabited P] (l : Log M P) (lastEntryId : Nat) : Log M P :=
  if lastEntryId < vsize l.entries then
    { l with entries := resize l.entries lastEntryId }
  else
    l

/-- `Log::updateMetadata()`: an empty body. -/
def updateMetadata (l : Log M P) : Log M P := l

/-- Append the entries of `es` one after the other, first to last; the result
pairs the final log with the list of the returned ids, in call order. -/
def appendAll (l : Log M P) : List (Entry P) → Log M P × List Nat
  | [] => (l, [])
  | e :: es =>
    let r := append l e
    let rest := appendAll r.1 es
    (rest.1, r.2 :: rest.2)

end Log

/-- The operations of `Log` that can change its state: `append(entry)`,
`truncate(lastEntryId)` and `updateMetadata()`. -/
inductive Op (P : Type) where
  | append (entry : Entry P)
  | truncate (lastEntryId : Nat)
  | updateMetadata
  deriving DecidableEq, Repr

/-- The log after one call of the operation `op`. -/
def step {M P : Type} [Inhabited P] (l : Log M P) : Op P → Log M P
  | Op.append entry => (Log.append l entry).1
  | Op.truncate lastEntryId => Log.truncate l lastEntryId
  | Op.updateMetadata => Log.updateMetadata l

/-- The log after the calls of `ops`, made first to last. -/
def run {M P : Type} [Inhabited P] (l : Log M P) : List (Op P) → Log M P
  | [] => l
  | op :: ops => run (step l op) ops

/-- Whether the entry id `id` stays within `1..=getLastLogIndex()` after each
of the calls of `ops`, made first to last from the log `l`. -/
def survives {M P : Type} [Inhabited P] (l : Log M P) (id : Nat) : List (Op P) → Bool
  | [] => true
  | op :: ops =>
    decide (id ≤ Log.getLastLogIndex (step l op)) && survives (step l op) id ops

/-- The log of scenario 1: entries with terms 1, 1, 2 appended to a new log. -/
def scenario1 : Log Unit Nat :=
  (Log.appendAll (Log.new : Log Unit Nat) [⟨1, 10⟩, ⟨1, 11⟩, ⟨2, 12⟩]).1

/-! ## Arithmetic on 64-bit values and the vector primitives -/

theorem UINT64_MODULUS_pos : 0 < UINT64_MODULUS := by
  unfold UINT64_MODULUS; norm_num

theorem sub64_lt (a b : Nat) : sub64 a b < UINT64_MODULUS :=
  Nat.mod_lt _ UINT64_MODULUS_pos

theorem sub64_zero_one : sub64 0 1 = UINT64_MODULUS - 1 := by
  unfold sub64 UINT64_MODULUS; norm_num

theorem sub64_one_of_pos (a : Nat) (h1 : 1 ≤ a) (h2 : a < UINT64_MODULUS) :
    sub64 a 1 = a - 1 := by
  unfold sub64 UINT64_MODULUS at *
  omega

section vector

variable {α : Type}

theorem vsize_le_length (v : List α) : vsize v ≤ v.length :=
  Nat.mod_le _ _

theorem vsize_lt (v : List α) : vsize v < UINT64_MODULUS :=
  Nat.mod_lt _ UINT64_MODULUS_pos

theorem vsize_eq_length (v : List α) (h : v.length < UINT64_MODULUS) :
    vsize v = v.length :=
  Nat.mod_eq_of_lt h

theorem vat_of_lt (v : List α) (i : Nat) (h : i < vsize v) :
    ∃ e, v[i]? = some e ∧ vat v i = Except.ok e := by
  have hl : i < v.length := Nat.lt_of_lt_of_le h (vsize_le_length v)
  refine ⟨v.get ⟨i, hl⟩, ?_, ?_⟩
  · simp [List.getElem?_eq_getElem hl]
  · simp [vat, h]

theorem vat_of_ge (v : List α) (i : Nat) (h : vsize v ≤ i) :
    vat v i = Except.error Error.OutOfRange := by
  simp [vat, Nat.not_lt.mpr h]

end vector

namespace Log

variable {M P : Type}

/-! ## Helper lemmas on the operations -/

theorem getEntry_of_index_lt (l : Log M P) (entryId : Nat)
    (h : sub64 entryId 1 < vsize l.entries) :
    ∃ e, l.entries[sub64 entryId 1]? = some e ∧ getEntry l entryId = Except.ok e :=
  vat_of_lt l.entries (sub64 entryId 1) h

theorem getEntry_of_index_ge (l : Log M P) (entryId : Nat)
    (h : vsize l.entries ≤ sub64 entryId 1) :
    getEntry l entryId = Except.error Error.OutOfRange :=
  vat_of_ge l.entries (sub64 entryId 1) h

theorem getTerm_of_index_lt (l : Log M P) (entryId : Nat)
    (h : sub64 entryId 1 < vsize l.entries) :
    ∃ e, l.entries[sub64 entryId 1]? = some e ∧ getTerm l entryId = Except.ok e.term := by
  obtain ⟨e, he, hv⟩ := vat_of_lt l.entries (sub64 entryId 1) h
  refine ⟨e, he, ?_⟩
  simp [getTerm, Nat.not_le.mpr h, hv, Except.map]

theorem getTerm_of_index_ge (l : Log M P) (entryId : Nat)
    (h : vsize l.entries ≤ sub64 entryId 1) :
    getTerm l entryId = Except.ok 0 := by
  simp [getTerm, h]

theorem index_ge_of_zero (l : Log M P) : vsize l.entries ≤ sub64 0 1 := by
  have := vsize_lt l.entries
  rw [sub64_zero_one]
  omega

theorem index_ge_of_gt (l : Log M P) (entryId : Nat) (h : entryId < UINT64_MODULUS)
    (hgt : entryId > getLastLogIndex l) : vsize l.entries ≤ sub64 entryId 1 := by
  unfold getLastLogIndex at hgt
  rw [sub64_one_of_pos entryId (by omega) h]
  omega

theorem index_lt_of_mem (l : Log M P) (entryId : Nat) (h1 : 1 ≤ entryId)
    (h2 : entryId ≤ getLastLogIndex l) :
    sub64 entryId 1 = entryId - 1 ∧ sub64 entryId 1 < vsize l.entries := by
  unfold getLastLogIndex at h2
  have := vsize_lt l.entries
  rw [sub64_one_of_pos entryId h1 (by omega)]
  omega

theorem resize_of_le {α : Type} [Inhabited α] (v : List α) (n : Nat)
    (h : n ≤ v.length) : resize v n = v.take n := by
  simp [resize, Nat.sub_eq_zero_of_le h]

theorem append_fst (l : Log M P) (e : Entry P) :
    (append l e).1 = { l with entries := l.entries ++ [e] } := rfl

theorem append_snd (l : Log M P) (e : Entry P) :
    (append l e).2 = (l.entries.length + 1) % UINT64_MODULUS := by
  simp [append, push_back, vsize]

theorem truncate_of_lt [Inhabited P] (l : Log M P) (k : Nat) (h : k < vsize l.entries) :
    truncate l k = { l with entries := l.entries.take k } := by
  have hle : k ≤ l.entries.length := Nat.le_of_lt (Nat.lt_of_lt_of_le h (vsize_le_length _))
  simp [truncate, h, resize_of_le l.entries k hle]

theorem truncate_of_ge [Inhabited P] (l : Log M P) (k : Nat) (h : vsize l.entries ≤ k) :
    truncate l k = l := by
  simp [truncate, Nat.not_lt.mpr h]

theorem vsize_truncate_of_lt [Inhabited P] (l : Log M P) (k : Nat)
    (h : k < vsize l.entries) : vsize (truncate l k).entries = k := by
  have hle : k ≤ l.entries.length := Nat.le_of_lt (Nat.lt_of_lt_of_le h (vsize_le_length _))
  have hk : k < UINT64_MODULUS := Nat.lt_trans h (vsize_lt _)
  rw [truncate_of_lt l k h]
  simp [vsize, Nat.min_eq_left hle, Nat.mod_eq_of_lt hk]

theorem appendAll_fst (l : Log M P) (es : List (Entry P)) :
    (appendAll l es).1 = { l with entries := l.entries ++ es } := by
  induction es generalizing l with
  | nil => simp [appendAll]
  | cons e es ih =>
    simp only [appendAll]
    rw [ih, append_fst]
    simp

theorem appendAll_snd_length (l : Log M P) (es : List (Entry P)) :
    (appendAll l es).2.length = es.length := by
  induction es generalizing l with
  | nil => simp [appendAll]
  | cons e es ih => simp [appendAll, ih]

theorem appendAll_snd_getElem? (l : Log M P) (es : List (Entry P)) (i : Nat)
    (h : i < es.length) :
    (appendAll l es).2[i]? = some ((l.entries.length + i + 1) % UINT64_MODULUS) := by
  induction es generalizing l i with
  | nil => simp at h
  | cons e es ih =>
    cases i with
    | zero => simp [appendAll, append_snd]
    | succ i =>
      simp only [appendAll, List.getElem?_cons_succ]
      rw [ih (append l e).1 i (by simpa using h), append_fst]
      simp only [List.length_append, List.length_singleton]
      congr 2
      omega

/-! ## The claims -/

/-- C3: for every log and every 64-bit `entryId`, `getEntry` fails with
`OutOfRange` exactly when `entryId` is 0 or exceeds `getLastLogIndex`;
otherwise it returns the entry stored at position `entryId - 1`. In particular
`getEntry 0` and `getEntry (getLastLogIndex + 1)` fail with `OutOfRange`, the
index of id 0 being `0 - 1` wrapped to `2 ^ 64 - 1`. -/
theorem getEntry_outOfRange_iff (l : Log M P) (entryId : Nat)
    (h : entryId < UINT64_MODULUS) :
    (getEntry l entryId = Except.error Error.OutOfRange ↔
        (entryId = 0 ∨ entryId > getLastLogIndex l)) ∧
    (¬ (entryId = 0 ∨ entryId > getLastLogIndex l) →
        ∃ e, l.entries[entryId - 1]? = some e ∧ getEntry l entryId = Except.ok e) ∧
    getEntry l 0 = Except.error Error.OutOfRange ∧
    getEntry l (getLastLogIndex l + 1) = Except.error Error.OutOfRange ∧
    sub64 0 1 = 2 ^ 64 - 1 := by
  have hin : ¬ (entryId = 0 ∨ entryId > getLastLogIndex l) →
      ∃ e, l.entries[entryId - 1]? = some e ∧ getEntry l entryId = Except.ok e := by
    intro hn
    have hidx := index_lt_of_mem l entryId (by omega) (by omega)
    obtain ⟨e, he, hg⟩ := getEntry_of_index_lt l entryId hidx.2
    rw [hidx.1] at he
    exact ⟨e, he, hg⟩
  have hzero : getEntry l 0 = Except.error Error.OutOfRange :=
    getEntry_of_index_ge l 0 (index_ge_of_zero l)
  refine ⟨⟨?_, ?_⟩, hin, hzero, ?_, sub64_zero_one⟩
  · intro herr
    by_contra hn
    obtain ⟨e, _, hg⟩ := hin hn
    rw [hg] at herr
    cases herr
  · rintro (h0 | hgt)
    · rw [h0]; exact hzero
    · exact getEntry_of_index_ge l entryId (index_ge_of_gt l entryId h hgt)
  · have hlt := vsize_lt l.entries
    by_cases hfull : getLastLogIndex l + 1 < UINT64_MODULUS
    · exact getEntry_of_index_ge l _ (index_ge_of_gt l _ hfull (by omega))
    · apply getEntry_of_index_ge
      unfold getLastLogIndex at *
      have hs : vsize l.entries + 1 = UINT64_MODULUS := by omega
      rw [hs]
      unfold sub64 UINT64_MODULUS at *
      omega

/-- Witness of C3 on the log of scenario 1, at id 2. -/
theorem getEntry_outOfRange_iff_witness :
    (2 : Nat) < UINT64_MODULUS ∧
    (getEntry scenario1 2 = Except.error Error.OutOfRange ↔
        ((2 : Nat) = 0 ∨ 2 > getLastLogIndex scenario1)) ∧
    getEntry scenario1 2 = Except.ok ⟨1, 11⟩ :=
  ⟨by decide, (getEntry_outOfRange_iff scenario1 2 (by decide)).1, by decide⟩

/-- C4: for every log, whatever it holds, `getTerm 0` returns 0, because the
index `0 - 1` wraps to `2 ^ 64 - 1`, which is not below `entries.size()`. -/
theorem getTerm_zero (l : Log M P) :
    getTerm l 0 = Except.ok 0 ∧ sub64 0 1 = 2 ^ 64 - 1 ∧ sub64 0 1 ≥ vsize l.entries :=
  ⟨getTerm_of_index_ge l 0 (index_ge_of_zero l), sub64_zero_one, index_ge_of_zero l⟩

/-- C5: for every log and every 64-bit id above `getLastLogIndex`, `getTerm`
returns 0. -/
theorem getTerm_beyond_end (l : Log M P) (id : Nat) (h : id < UINT64_MODULUS)
    (hgt : id > getLastLogIndex l) : getTerm l id = Except.ok 0 :=
  getTerm_of_index_ge l id (index_ge_of_gt l id h hgt)

/-- Witness of C5 on the log of scenario 1, at id 4. -/
theorem getTerm_beyond_end_witness :
    (4 : Nat) < UINT64_MODULUS ∧ 4 > getLastLogIndex scenario1 ∧
    getTerm scenario1 4 = Except.ok 0 :=
  ⟨by decide, by decide, getTerm_beyond_end scenario1 4 (by decide) (by decide)⟩

/-- C6: for every log and every id with `1 ≤ id ≤ getLastLogIndex`, `getEntry`
succeeds and `getTerm` returns the term of the entry it returns. -/
theorem getTerm_eq_getEntry_term (l : Log M P) (id : Nat) (h1 : 1 ≤ id)
    (h2 : id ≤ getLastLogIndex l) :
    ∃ e, getEntry l id = Except.ok e ∧ getTerm l id = Except.ok e.term := by
  have hidx := index_lt_of_mem l id h1 h2
  obtain ⟨e, he, hg⟩ := getEntry_of_index_lt l id hidx.2
  obtain ⟨e2, he2, ht⟩ := getTerm_of_index_lt l id hidx.2
  rw [he] at he2
  cases he2
  exact ⟨e, hg, ht⟩

/-- Witness of C6 on the log of scenario 1, at id 3. -/
theorem getTerm_eq_getEntry_term_witness :
    1 ≤ 3 ∧ 3 ≤ getLastLogIndex scenario1 ∧
    ∃ e, getEntry scenario1 3 = Except.ok e ∧ getTerm scenario1 3 = Except.ok e.term :=
  ⟨by decide, by decide, getTerm_eq_getEntry_term scenario1 3 (by decide) (by decide)⟩

/-- C7: `getTerm` is total: for every log and every id it returns a term and
never raises; the access `entries.at(index)` is only evaluated with
`index < entries.size()`, where it succeeds. -/
theorem getTerm_total (l : Log M P) (id : Nat) :
    (∃ t, getTerm l id = Except.ok t) ∧
    (∀ err, getTerm l id ≠ Except.error err) ∧
    (¬ (sub64 id 1 ≥ vsize l.entries) → ∃ e, vat l.entries (sub64 id 1) = Except.ok e) := by
  have hok : ∃ t, getTerm l id = Except.ok t := by
    by_cases hidx : sub64 id 1 < vsize l.entries
    · obtain ⟨e, _, ht⟩ := getTerm_of_index_lt l id hidx
      exact ⟨e.term, ht⟩
    · exact ⟨0, getTerm_of_index_ge l id (Nat.not_lt.mp hidx)⟩
  refine ⟨hok, ?_, ?_⟩
  · intro err herr
    obtain ⟨t, ht⟩ := hok
    rw [ht] at herr
    cases herr
  · intro hidx
    obtain ⟨e, _, hv⟩ := vat_of_lt l.entries (sub64 id 1) (Nat.not_le.mp hidx)
    exact ⟨e, hv⟩

/-- C1: for every sequence of entries appended in order to a new log (short
enough for its length to be a 64-bit value), the i-th append returns i,
`getLastLogIndex` afterwards is the number of entries, and `getEntry i` returns
the i-th appended entry for every `1 ≤ i ≤ N`. -/
theorem appendAll_new [Inhabited M] (es : List (Entry P))
    (h : es.length < UINT64_MODULUS) :
    (appendAll (Log.new : Log M P) es).2.length = es.length ∧
    (∀ i, 1 ≤ i → i ≤ es.length → (appendAll (Log.new : Log M P) es).2[i - 1]? = some i) ∧
    getLastLogIndex (appendAll (Log.new : Log M P) es).1 = es.length ∧
    (∀ i, 1 ≤ i → i ≤ es.length →
      ∃ e, es[i - 1]? = some e ∧
        getEntry (appendAll (Log.new : Log M P) es).1 i = Except.ok e) := by
  have hfst : (appendAll (Log.new : Log M P) es).1.entries = es := by
    rw [appendAll_fst]; simp [Log.new]
  have hsize : getLastLogIndex (appendAll (Log.new : Log M P) es).1 = es.length := by
    unfold getLastLogIndex
    rw [hfst]
    exact vsize_eq_length es h
  refine ⟨appendAll_snd_length _ es, ?_, hsize, ?_⟩
  · intro i h1 h2
    rw [appendAll_snd_getElem? _ es (i - 1) (by omega)]
    have hi : (0 + (i - 1) + 1) % UINT64_MODULUS = i := by
      rw [Nat.mod_eq_of_lt (by omega)]; omega
    simpa [Log.new] using hi
  · intro i h1 h2
    have hidx := index_lt_of_mem _ i h1 (by rw [hsize]; exact h2)
    obtain ⟨e, he, hg⟩ := getEntry_of_index_lt _ i hidx.2
    rw [hidx.1, hfst] at he
    exact ⟨e, he, hg⟩

/-- Witness of C1: the three appends of scenario 1. -/
theorem appendAll_new_witness :
    ([⟨1, 10⟩, ⟨1, 11⟩, ⟨2, 12⟩] : List (Entry Nat)).length < UINT64_MODULUS ∧
    getLastLogIndex
      (appendAll (Log.new : Log Unit Nat) [⟨1, 10⟩, ⟨1, 11⟩, ⟨2, 12⟩]).1 = 3 ∧
    (appendAll (Log.new : Log Unit Nat) [⟨1, 10⟩, ⟨1, 11⟩, ⟨2, 12⟩]).2 = [1, 2, 3] :=
  ⟨by decide,
   (@appendAll_new Unit Nat _ [⟨1, 10⟩, ⟨1, 11⟩, ⟨2, 12⟩] (by decide)).2.2.1,
   by decide⟩

/-- C2: for every log whose vector can still grow by one element and every
entry `e`, whatever its term, `append e` returns the old `getLastLogIndex`
plus one, which is the new `getLastLogIndex`, and `e` is the new last entry:
`getEntry` at the returned id gives `e` and `getTerm` gives its term. A second
append returns an id greater by exactly one. -/
theorem append_spec (l : Log M P) (e : Entry P)
    (h : l.entries.length + 1 < UINT64_MODULUS) :
    (append l e).2 = getLastLogIndex l + 1 ∧
    (append l e).2 = getLastLogIndex (append l e).1 ∧
    getEntry (append l e).1 (append l e).2 = Except.ok e ∧
    getTerm (append l e).1 (append l e).2 = Except.ok e.term ∧
    (append l e).1.entries = l.entries ++ [e] ∧
    (∀ e2 : Entry P, l.entries.length + 2 < UINT64_MODULUS →
      (append (append l e).1 e2).2 = (append l e).2 + 1) := by
  have hold : getLastLogIndex l = l.entries.length :=
    vsize_eq_length l.entries (by omega)
  have hid : (append l e).2 = l.entries.length + 1 := by
    rw [append_snd]; exact Nat.mod_eq_of_lt h
  have hnew : getLastLogIndex (append l e).1 = l.entries.length + 1 := by
    show vsize (l.entries ++ [e]) = l.entries.length + 1
    rw [vsize_eq_length _ (by simpa using h)]
    simp
  have hidx := index_lt_of_mem (append l e).1 (append l e).2 (by omega) (by omega)
  have hlast : ∀ e1, (append l e).1.entries[sub64 (append l e).2 1]? = some e1 → e1 = e := by
    intro e1 he1
    rw [hidx.1, hid, append_fst] at he1
    simpa using he1.symm
  refine ⟨by omega, by omega, ?_, ?_, by rw [append_fst], ?_⟩
  · obtain ⟨e1, he1, hg⟩ := getEntry_of_index_lt _ _ hidx.2
    rw [hlast e1 he1] at hg
    exact hg
  · obtain ⟨e1, he1, hg⟩ := getTerm_of_index_lt _ _ hidx.2
    rw [hlast e1 he1] at hg
    exact hg
  · intro e2 h2
    rw [append_snd, append_fst, hid]
    simp only [List.length_append, List.length_singleton]
    exact Nat.mod_eq_of_lt h2

/-- Witness of C2: appending an entry of term 0 to the log of scenario 1,
whose last entry has term 2. -/
theorem append_spec_witness :
    scenario1.entries.length + 1 < UINT64_MODULUS ∧
    (append scenario1 ⟨0, 13⟩).2 = getLastLogIndex scenario1 + 1 ∧
    (append scenario1 ⟨0, 13⟩).2 = 4 :=
  ⟨by decide, (append_spec scenario1 ⟨0, 13⟩ (by decide)).1, by decide⟩

/-- C8: for every log and every `k` below `getLastLogIndex`, after
`truncate k` the value of `getLastLogIndex` is `k`, the entries are the first
`k` of the old ones, `getEntry i` returns the same entry as before for every
`1 ≤ i ≤ k`, and for every 64-bit `j > k` `getEntry j` fails with `OutOfRange`
and `getTerm j` returns 0. -/
theorem truncate_shorter [Inhabited P] (l : Log M P) (k : Nat)
    (h : k < getLastLogIndex l) :
    getLastLogIndex (truncate l k) = k ∧
    (truncate l k).entries = l.entries.take k ∧
    (∀ i, 1 ≤ i → i ≤ k →
      ∃ e, getEntry l i = Except.ok e ∧ getEntry (truncate l k) i = Except.ok e) ∧
    (∀ j, j < UINT64_MODULUS → k < j →
      getEntry (truncate l k) j = Except.error Error.OutOfRange ∧
      getTerm (truncate l k) j = Except.ok 0) := by
  have hk : k < vsize l.entries := h
  have hsize : getLastLogIndex (truncate l k) = k := vsize_truncate_of_lt l k hk
  have hent : (truncate l k).entries = l.entries.take k := by
    rw [truncate_of_lt l k hk]
  refine ⟨hsize, hent, ?_, ?_⟩
  · intro i h1 h2
    have hold := index_lt_of_mem l i h1 (by omega)
    have hnew := index_lt_of_mem (truncate l k) i h1 (by omega)
    obtain ⟨e, he, hg⟩ := getEntry_of_index_lt l i hold.2
    obtain ⟨e1, he1, hg1⟩ := getEntry_of_index_lt (truncate l k) i hnew.2
    rw [hent, hnew.1, List.getElem?_take_of_lt (by omega)] at he1
    rw [hold.1, he1] at he
    have hee : e1 = e := Option.some.inj he
    rw [hee] at hg1
    exact ⟨e, hg, hg1⟩
  · intro j hj hkj
    have hidx := index_ge_of_gt (truncate l k) j hj (by omega)
    exact ⟨getEntry_of_index_ge _ j hidx, getTerm_of_index_ge _ j hidx⟩

/-- Witness of C8: scenario 2, the log of scenario 1 truncated to one entry. -/
theorem truncate_shorter_witness :
    1 < getLastLogIndex scenario1 ∧
    getLastLogIndex (truncate scenario1 1) = 1 ∧
    getEntry (truncate scenario1 1) 1 = Except.ok ⟨1, 10⟩ ∧
    getEntry (truncate scenario1 1) 2 = Except.error Error.OutOfRange :=
  ⟨by decide, (truncate_shorter scenario1 1 (by decide)).1, by decide, by decide⟩

/-- C9: for every log and every `k` not below `getLastLogIndex`, `truncate k`
leaves the log as it is: same entries, same metadata. -/
theorem truncate_noop [Inhabited P] (l : Log M P) (k : Nat)
    (h : k ≥ getLastLogIndex l) :
    truncate l k = l ∧ (truncate l k).entries = l.entries ∧
    (truncate l k).metadata = l.metadata := by
  have ht : truncate l k = l := truncate_of_ge l k h
  rw [ht]
  exact ⟨rfl, rfl, rfl⟩

/-- Witness of C9: truncating the log of scenario 1 to 3 and to `2 ^ 64 - 1`. -/
theorem truncate_noop_witness :
    3 ≥ getLastLogIndex scenario1 ∧ truncate scenario1 3 = scenario1 ∧
    truncate scenario1 (2 ^ 64 - 1) = scenario1 :=
  ⟨by decide, (truncate_noop scenario1 3 (by decide)).1, by decide⟩

/-- C10: `truncate` is idempotent: for every log and all ids `k ≤ j`,
`truncate k` followed by `truncate j` gives the same log as `truncate k`
alone; in particular with `j = k`. -/
theorem truncate_idempotent [Inhabited P] (l : Log M P) (k j : Nat) (h : j ≥ k) :
    truncate (truncate l k) j = truncate l k ∧
    truncate (truncate l k) k = truncate l k := by
  have key : ∀ j, j ≥ k → truncate (truncate l k) j = truncate l k := by
    intro j hj
    by_cases hk : k < vsize l.entries
    · apply truncate_of_ge
      rw [vsize_truncate_of_lt l k hk]
      exact hj
    · rw [truncate_of_ge l k (Nat.not_lt.mp hk)]
      exact truncate_of_ge l j (Nat.le_trans (Nat.not_lt.mp hk) hj)
  exact ⟨key j h, key k (Nat.le_refl k)⟩

/-- Witness of C10: the log of scenario 1 truncated to 1, then to 2. -/
theorem truncate_idempotent_witness :
    2 ≥ 1 ∧ truncate (truncate scenario1 1) 2 = truncate scenario1 1 :=
  ⟨by decide, (truncate_idempotent scenario1 1 2 (by decide)).1⟩

/-! ## Helper lemmas on lookups after a change of the log -/

theorem lookup_of_getElem? (l : Log M P) (i : Nat) (e : Entry P) (h1 : 1 ≤ i)
    (h2 : i ≤ vsize l.entries) (he : l.entries[i - 1]? = some e) :
    getEntry l i = Except.ok e ∧ getTerm l i = Except.ok e.term := by
  have hidx := index_lt_of_mem l i h1 h2
  obtain ⟨e1, he1, hg⟩ := getEntry_of_index_lt l i hidx.2
  obtain ⟨e2, he2, ht⟩ := getTerm_of_index_lt l i hidx.2
  rw [hidx.1, he] at he1 he2
  rw [← Option.some.inj he1] at hg
  rw [← Option.some.inj he2] at ht
  exact ⟨hg, ht⟩

theorem lookup_congr (l1 l2 : Log M P) (i : Nat) (h1 : 1 ≤ i)
    (ha : i ≤ vsize l1.entries) (hb : i ≤ vsize l2.entries)
    (heq : l2.entries[i - 1]? = l1.entries[i - 1]?) :
    getEntry l2 i = getEntry l1 i ∧ getTerm l2 i = getTerm l1 i := by
  have hlen : i - 1 < l1.entries.length := by
    have := vsize_le_length l1.entries
    omega
  have he : l1.entries[i - 1]? = some (l1.entries.get ⟨i - 1, hlen⟩) := by
    simp [List.getElem?_eq_getElem hlen]
  have r1 := lookup_of_getElem? l1 i _ h1 ha he
  have r2 := lookup_of_getElem? l2 i _ h1 hb (heq.trans he)
  exact ⟨r2.1.trans r1.1.symm, r2.2.trans r1.2.symm⟩

theorem append_last (l : Log M P) (e : Entry P)
    (h : l.entries.length + 1 < UINT64_MODULUS) :
    (append l e).2 = l.entries.length + 1 ∧
    getLastLogIndex (append l e).1 = l.entries.length + 1 ∧
    getEntry (append l e).1 (l.entries.length + 1) = Except.ok e ∧
    getTerm (append l e).1 (l.entries.length + 1) = Except.ok e.term := by
  have hid : (append l e).2 = l.entries.length + 1 := by
    rw [append_snd]; exact Nat.mod_eq_of_lt h
  have hnew : vsize (append l e).1.entries = l.entries.length + 1 := by
    show vsize (l.entries ++ [e]) = l.entries.length + 1
    rw [vsize_eq_length _ (by simpa using h)]
    simp
  have hget : (append l e).1.entries[l.entries.length + 1 - 1]? = some e := by
    show (l.entries ++ [e])[l.entries.length + 1 - 1]? = some e
    simp
  have r := lookup_of_getElem? (append l e).1 (l.entries.length + 1) e (by omega)
    (by omega) hget
  exact ⟨hid, hnew, r.1, r.2⟩

theorem step_getElem? [Inhabited P] (l : Log M P) (op : Op P) (id : Nat)
    (h1 : 1 ≤ id) (ha : id ≤ vsize l.entries) (hb : id ≤ vsize (step l op).entries) :
    (step l op).entries[id - 1]? = l.entries[id - 1]? := by
  have hlen := vsize_le_length l.entries
  cases op with
  | append e =>
    show (l.entries ++ [e])[id - 1]? = l.entries[id - 1]?
    exact List.getElem?_append_left (by omega)
  | truncate k =>
    by_cases hk : k < vsize l.entries
    · have hs : vsize (truncate l k).entries = k := vsize_truncate_of_lt l k hk
      have hid : id ≤ k := by
        have hb2 : id ≤ vsize (truncate l k).entries := hb
        omega
      show (truncate l k).entries[id - 1]? = l.entries[id - 1]?
      rw [truncate_of_lt l k hk]
      exact List.getElem?_take_of_lt (by omega)
    · show (truncate l k).entries[id - 1]? = l.entries[id - 1]?
      rw [truncate_of_ge l k (Nat.not_lt.mp hk)]
  | updateMetadata => rfl

theorem step_lookup [Inhabited P] (l : Log M P) (op : Op P) (id : Nat)
    (h1 : 1 ≤ id) (ha : id ≤ vsize l.entries) (hb : id ≤ vsize (step l op).entries) :
    getEntry (step l op) id = getEntry l id ∧ getTerm (step l op) id = getTerm l id :=
  lookup_congr l (step l op) id h1 ha hb (step_getElem? l op id h1 ha hb)

theorem run_lookup [Inhabited P] (ops : List (Op P)) (l : Log M P) (id : Nat)
    (h1 : 1 ≤ id) (ha : id ≤ vsize l.entries) (hs : survives l id ops = true) :
    getEntry (run l ops) id = getEntry l id ∧ getTerm (run l ops) id = getTerm l id := by
  induction ops generalizing l with
  | nil => exact ⟨rfl, rfl⟩
  | cons op ops ih =>
    simp only [survives, Bool.and_eq_true, decide_eq_true_eq] at hs
    have hb : id ≤ vsize (step l op).entries := hs.1
    have r1 := step_lookup l op id h1 ha hb
    have r2 := ih (step l op) hb hs.2
    exact ⟨r2.1.trans r1.1, r2.2.trans r1.2⟩

theorem truncate_length_of_le [Inhabited P] (l : Log M P) (k : Nat)
    (hv : l.entries.length < UINT64_MODULUS) (hk : k ≤ vsize l.entries) :
    (truncate l k).entries.length = k := by
  have hs : vsize l.entries = l.entries.length := vsize_eq_length l.entries hv
  by_cases hlt : k < vsize l.entries
  · rw [truncate_of_lt l k hlt]
    simp only [List.length_take]
    omega
  · rw [truncate_of_ge l k (Nat.not_lt.mp hlt)]
    omega

/-! ## The claims on combined operations -/

/-- C11: for every log, every `k ≤ getLastLogIndex` and every entry `e` (the
vector being able to hold `k + 1` elements), `truncate k` followed by
`append e` returns the id `k + 1`; afterwards `getLastLogIndex` is `k + 1`,
`getEntry (k + 1)` is `e`, `getTerm (k + 1)` is the term of `e`, and `getEntry i`
and `getTerm i` for every `1 ≤ i ≤ k` are as before the truncate. -/
theorem truncate_then_append [Inhabited P] (l : Log M P) (k : Nat) (e : Entry P)
    (hv : l.entries.length < UINT64_MODULUS) (hk : k ≤ getLastLogIndex l)
    (hroom : k + 1 < UINT64_MODULUS) :
    (append (truncate l k) e).2 = k + 1 ∧
    getLastLogIndex (append (truncate l k) e).1 = k + 1 ∧
    getEntry (append (truncate l k) e).1 (k + 1) = Except.ok e ∧
    getTerm (append (truncate l k) e).1 (k + 1) = Except.ok e.term ∧
    (∀ i, 1 ≤ i → i ≤ k →
      getEntry (append (truncate l k) e).1 i = getEntry l i ∧
      getTerm (append (truncate l k) e).1 i = getTerm l i) := by
  have hlen : (truncate l k).entries.length = k := truncate_length_of_le l k hv hk
  have hlast := append_last (truncate l k) e (by rw [hlen]; exact hroom)
  rw [hlen] at hlast
  refine ⟨hlast.1, hlast.2.1, hlast.2.2.1, hlast.2.2.2, ?_⟩
  intro i h1 h2
  have hsT : vsize (truncate l k).entries = k := by
    rw [vsize_eq_length _ (by omega)]; exact hlen
  have hcut : (truncate l k).entries[i - 1]? = l.entries[i - 1]? :=
    step_getElem? l (Op.truncate k) i h1 (Nat.le_trans h2 hk)
      (by show i ≤ vsize (truncate l k).entries; omega)
  have hnew : (append (truncate l k) e).1.entries[i - 1]? = l.entries[i - 1]? := by
    show ((truncate l k).entries ++ [e])[i - 1]? = l.entries[i - 1]?
    rw [List.getElem?_append_left (by omega)]
    exact hcut
  have hsize : vsize (append (truncate l k) e).1.entries = k + 1 := hlast.2.1
  exact lookup_congr l (append (truncate l k) e).1 i h1 (Nat.le_trans h2 hk)
    (by omega) hnew

/-- Witness of C11: scenario 3, the log of scenario 1 truncated to one entry,
then an entry of term 3 appended. -/
theorem truncate_then_append_witness :
    scenario1.entries.length < UINT64_MODULUS ∧ 1 ≤ getLastLogIndex scenario1 ∧
    1 + 1 < UINT64_MODULUS ∧
    (append (truncate scenario1 1) ⟨3, 13⟩).2 = 1 + 1 ∧
    getTerm (append (truncate scenario1 1) ⟨3, 13⟩).1 2 = Except.ok 3 ∧
    getTerm (append (truncate scenario1 1) ⟨3, 13⟩).1 1 = Except.ok 1 :=
  ⟨by decide, by decide, by decide,
   (truncate_then_append scenario1 1 ⟨3, 13⟩ (by decide) (by decide) (by decide)).1,
   by decide, by decide⟩

/-- C12: a newly created log is empty: `getLastLogIndex` is 0, `getTerm id` is
0 for every id and `getEntry id` fails with `OutOfRange` for every id. -/
theorem new_empty [Inhabited M] :
    getLastLogIndex (Log.new : Log M P) = 0 ∧
    (∀ id, getTerm (Log.new : Log M P) id = Except.ok 0) ∧
    (∀ id, getEntry (Log.new : Log M P) id = Except.error Error.OutOfRange) ∧
    (Log.new : Log M P).entries = [] ∧
    (Log.new : Log M P).metadata = default := by
  have hs : vsize (Log.new : Log M P).entries = 0 := by
    simp [Log.new, vsize]
  refine ⟨hs, ?_, ?_, rfl, rfl⟩
  · intro id
    exact getTerm_of_index_ge _ id (by rw [hs]; exact Nat.zero_le _)
  · intro id
    exact getEntry_of_index_ge _ id (by rw [hs]; exact Nat.zero_le _)

/-- C13: `updateMetadata` has no effect: the log after the call is the log
before it (same entries, same metadata), so `getLastLogIndex`, `getEntry` and
`getTerm` answer as before. -/
theorem updateMetadata_noop (l : Log M P) :
    updateMetadata l = l ∧
    (updateMetadata l).entries = l.entries ∧
    (updateMetadata l).metadata = l.metadata ∧
    getLastLogIndex (updateMetadata l) = getLastLogIndex l ∧
    (∀ id, getEntry (updateMetadata l) id = getEntry l id) ∧
    (∀ id, getTerm (updateMetadata l) id = getTerm l id) :=
  ⟨rfl, rfl, rfl, rfl, fun _ => rfl, fun _ => rfl⟩

/-- C14: entries are never changed once appended: for every log, every single
operation among `append`, `truncate` and `updateMetadata`, and every id with
`1 ≤ id ≤ min (getLastLogIndex before) (getLastLogIndex after)`, `getEntry id`
and `getTerm id` answer the same after the operation as before; and the same
holds after any sequence of operations that keeps the id within the log after
each step. -/
theorem entries_never_mutated [Inhabited P] (l : Log M P) (op : Op P) (id : Nat)
    (h1 : 1 ≤ id)
    (h2 : id ≤ min (getLastLogIndex l) (getLastLogIndex (step l op))) :
    getEntry (step l op) id = getEntry l id ∧
    getTerm (step l op) id = getTerm l id ∧
    (∀ ops : List (Op P), survives l id ops = true →
      getEntry (run l ops) id = getEntry l id ∧
      getTerm (run l ops) id = getTerm l id) := by
  have ha : id ≤ vsize l.entries := Nat.le_trans h2 (Nat.min_le_left _ _)
  have hb : id ≤ vsize (step l op).entries := Nat.le_trans h2 (Nat.min_le_right _ _)
  have r := step_lookup l op id h1 ha hb
  exact ⟨r.1, r.2, fun ops hs => run_lookup ops l id h1 ha hs⟩

/-- Witness of C14: the first entry of the log of scenario 1 across an
`append`, and across a truncate to 1 followed by an append. -/
theorem entries_never_mutated_witness :
    1 ≤ 1 ∧
    1 ≤ min (getLastLogIndex scenario1)
      (getLastLogIndex (step scenario1 (Op.append ⟨0, 13⟩))) ∧
    getEntry (step scenario1 (Op.append ⟨0, 13⟩)) 1 = getEntry scenario1 1 ∧
    getEntry (run scenario1 [Op.truncate 1, Op.append ⟨3, 13⟩, Op.updateMetadata]) 1 =
      Except.ok ⟨1, 10⟩ :=
  ⟨by decide, by decide,
   (entries_never_mutated scenario1 (Op.append ⟨0, 13⟩) 1 (by decide) (by decide)).1,
   by decide⟩

/-- C15: in a log whose stored entries all have a term of at least 1, for
every 64-bit id, `getTerm id` is 0 exactly when `id` is 0 or above
`getLastLogIndex`; whereas `append` accepts an entry of term 0, after which
`getTerm` returns 0 at the id 1, which lies within `1..=getLastLogIndex`. -/
theorem getTerm_sentinel (l : Log M P) (id : Nat) (h : id < UINT64_MODULUS)
    (hterms : ∀ e ∈ l.entries, 1 ≤ e.term) :
    (getTerm l id = Except.ok 0 ↔ (id = 0 ∨ id > getLastLogIndex l)) ∧
    (∀ (m : M) (p : P),
      (append (Log.mk m []) (Entry.mk 0 p)).2 = 1 ∧
      1 ≤ getLastLogIndex (append (Log.mk m []) (Entry.mk 0 p)).1 ∧
      getTerm (append (Log.mk m []) (Entry.mk 0 p)).1 1 = Except.ok 0) := by
  refine ⟨⟨?_, ?_⟩, ?_⟩
  · intro hz
    by_contra hn
    have hidx := index_lt_of_mem l id (by omega) (by omega)
    obtain ⟨e, he, ht⟩ := getTerm_of_index_lt l id hidx.2
    have hpos := hterms e (List.getElem?_mem he)
    rw [ht] at hz
    have h0 : e.term = 0 := Except.ok.inj hz
    omega
  · rintro (h0 | hgt)
    · rw [h0]; exact getTerm_of_index_ge l 0 (index_ge_of_zero l)
    · exact getTerm_of_index_ge l id (index_ge_of_gt l id h hgt)
  · intro m p
    have r := append_last (Log.mk m ([] : List (Entry P))) (Entry.mk 0 p)
      (by show 0 + 1 < UINT64_MODULUS; unfold UINT64_MODULUS; norm_num)
    exact ⟨r.1, Nat.le_of_eq r.2.1.symm, r.2.2.2⟩

/-- Witness of C15: the log of scenario 1, whose terms are 1, 1, 2, at the
ids 2 and 4. -/
theorem getTerm_sentinel_witness :
    (4 : Nat) < UINT64_MODULUS ∧ (∀ e ∈ scenario1.entries, 1 ≤ e.term) ∧
    (getTerm scenario1 4 = Except.ok 0 ↔ ((4 : Nat) = 0 ∨ 4 > getLastLogIndex scenario1)) ∧
    getTerm scenario1 2 = Except.ok 1 ∧
    getTerm (append (Log.mk () []) (Entry.mk 0 7)).1 1 = Except.ok 0 :=
  ⟨by decide, by decide,
   (getTerm_sentinel scenario1 4 (by decide) (by decide)).1, by decide, by decide⟩

/-- C16: truncations compose as a minimum and commute: for every log and all
ids `a` and `b`, `truncate a` followed by `truncate b` gives the same log as
`truncate (min a b)` and as `truncate b` followed by `truncate a`; the
resulting `getLastLogIndex` is the minimum of `a`, `b` and the old one. -/
theorem truncate_truncate [Inhabited P] (l : Log M P) (a b : Nat) :
    truncate (truncate l a) b = truncate l (min a b) ∧
    truncate (truncate l a) b = truncate (truncate l b) a ∧
    getLastLogIndex (truncate (truncate l a) b) =
      min a (min b (getLastLogIndex l)) := by
  have key : ∀ a b : Nat, truncate (truncate l a) b = truncate l (min a b) := by
    intro a b
    by_cases ha : a < vsize l.entries
    · have hs : vsize (truncate l a).entries = a := vsize_truncate_of_lt l a ha
      by_cases hb : b < a
      · rw [Nat.min_eq_right (Nat.le_of_lt hb),
          truncate_of_lt (truncate l a) b (by rw [hs]; exact hb),
          truncate_of_lt l a ha, truncate_of_lt l b (Nat.lt_trans hb ha)]
        simp [List.take_take, Nat.min_eq_left (Nat.le_of_lt hb)]
      · rw [Nat.min_eq_left (Nat.not_lt.mp hb),
          truncate_of_ge (truncate l a) b (by rw [hs]; exact Nat.not_lt.mp hb)]
    · rw [truncate_of_ge l a (Nat.not_lt.mp ha)]
      by_cases hb : b < vsize l.entries
      · rw [Nat.min_eq_right (by omega)]
      · rw [truncate_of_ge l b (Nat.not_lt.mp hb), truncate_of_ge l (min a b) (by omega)]
  have hsize : ∀ c : Nat, vsize (truncate l c).entries = min c (vsize l.entries) := by
    intro c
    by_cases hc : c < vsize l.entries
    · rw [vsize_truncate_of_lt l c hc]; omega
    · rw [truncate_of_ge l c (Nat.not_lt.mp hc)]; omega
  refine ⟨key a b, ?_, ?_⟩
  · rw [key a b, key b a, Nat.min_comm]
  · show vsize (truncate (truncate l a) b).entries = min a (min b (vsize l.entries))
    rw [key a b, hsize]
    omega

/-- C17: `truncate` undoes `append`: for every log whose vector can still grow
by one element, with `n = getLastLogIndex` and every entry `e`, `append e`
followed by `truncate n` gives back the original log, entries and metadata. -/
theorem append_then_truncate [Inhabited P] (l : Log M P) (e : Entry P)
    (h : l.entries.length + 1 < UINT64_MODULUS) :
    truncate (append l e).1 (getLastLogIndex l) = l ∧
    (truncate (append l e).1 (getLastLogIndex l)).entries = l.entries ∧
    (truncate (append l e).1 (getLastLogIndex l)).metadata = l.metadata := by
  have hn : getLastLogIndex l = l.entries.length :=
    vsize_eq_length l.entries (by omega)
  have hnew : vsize (append l e).1.entries = l.entries.length + 1 :=
    (append_last l e h).2.1
  have ht : truncate (append l e).1 (getLastLogIndex l) = l := by
    rw [hn, truncate_of_lt (append l e).1 l.entries.length (by omega), append_fst]
    simp
  rw [ht]
  exact ⟨rfl, rfl, rfl⟩

/-- Witness of C17: an entry appended to the log of scenario 1 and cut off
again. -/
theorem append_then_truncate_witness :
    scenario1.entries.length + 1 < UINT64_MODULUS ∧
    truncate (append scenario1 ⟨5, 14⟩).1 (getLastLogIndex scenario1) = scenario1 :=
  ⟨by decide, (append_then_truncate scenario1 ⟨5, 14⟩ (by decide)).1⟩

/-- C18: the entry operations never touch the metadata: for every log, every
entry `e` and every id `k`, the metadata after `append e` and after
`truncate k` is the metadata before the call. -/
theorem metadata_untouched [Inhabited P] (l : Log M P) (e : Entry P) (k : Nat) :
    (append l e).1.metadata = l.metadata ∧ (truncate l k).metadata = l.metadata := by
  refine ⟨rfl, ?_⟩
  by_cases hk : k < vsize l.entries
  · rw [truncate_of_lt l k hk]
  · rw [truncate_of_ge l k (Nat.not_lt.mp hk)]

end Log

end RaftConsensusInternal
end Server
end LogCabin
